import Mathlib

/-
Verification of the CorrelatedAutomata repository (CorrelatedAutomata.py).

Shallow embedding conventions:
* Python floats are modelled by exact fields: rationals for the discrete
  learning/bookkeeping code (NormalizedToOne, WeightedChoice, memory and
  payoff prediction, the classical correlation), and real/complex numbers
  for the trigonometric unitary construction and quantum amplitudes.
* Randomness (random.uniform draws, sampled measurement indices) is passed
  in explicitly as a parameter.
* Python assertions and attribute errors are modelled with Except / Option.
-/

namespace CorrelatedAutomata

/-- The module-level constant EPSILON = 0.00001 (rational version). -/
def EPSILON : ℚ := 1 / 100000

/-- Embeds NormalizedToOne (CorrelatedAutomata.py lines 64-73):
absw = [abs(w) for w in weights]; s = sum(absw);
return [1/len(absw)]*len(absw) if s < EPSILON else [w/s for w in weights]. -/
def NormalizedToOne (weights : List ℚ) : List ℚ :=
  let absw := weights.map (fun w => |w|)
  let s := absw.sum
  if s < EPSILON then List.replicate absw.length ((1 : ℚ) / (absw.length : ℚ))
  else weights.map (fun w => w / s)

/-- Embeds the loop of WeightedChoice (lines 75-84).  The state carries the
running prefix sum upto and the current index i; reaching the end of the
list models the `assert False, "Random overflow"` branch as none. -/
def WeightedChoiceAux (r : ℚ) : List ℚ → ℚ → ℕ → Option ℕ
  | [], _, _ => none
  | w :: rest, upto, i =>
      if upto + w ≥ r then some i else WeightedChoiceAux r rest (upto + w) (i + 1)

/-- Embeds WeightedChoice (lines 75-84); the uniform draw
r = random.uniform(0, sum(weights)) is passed in as a parameter. -/
def WeightedChoice (weights : List ℚ) (r : ℚ) : Option ℕ :=
  WeightedChoiceAux r weights 0 0

/-- One record of LearningAutomaton._Memory (lines 571-576):
(Observable, local-operation snapshot, chosen-block snapshot, payoff). -/
structure PlayRecord where
  observable : ℕ
  localOperation : List ℚ
  mixedChoice : List ℚ
  payoff : ℚ
  deriving DecidableEq

/-- Squared distance between two parameter vectors, as computed at line 496:
sum(((s1-s2)**2 for s1,s2 in zip(strategy,local_operation))); zip truncates
to the shorter list. -/
def dist2 (xs ys : List ℚ) : ℚ := ((xs.zip ys).map (fun p => (p.1 - p.2) ^ 2)).sum

/-- One iteration of the loop of PredictLocalOperationPayoff (lines 495-502),
carrying the state (result, weight, coincidents). -/
def PredictLOStep (strategy : List ℚ) (st : ℚ × ℚ × List ℚ) (rec : PlayRecord) :
    ℚ × ℚ × List ℚ :=
  let d2 := dist2 strategy rec.localOperation
  if d2 < EPSILON then (st.1, st.2.1, st.2.2 ++ [rec.payoff])
  else if st.2.2 = [] then (st.1 + rec.payoff * (1 / d2), st.2.1 + 1 / d2, st.2.2)
  else st

/-- Embeds PredictLocalOperationPayoff (lines 486-504): fold the loop over
memory, then return sum(coincidents)/len(coincidents) if coincidents else
result/max(weight, EPSILON). -/
def PredictLocalOperationPayoff (memory : List PlayRecord) (strategy : List ℚ) : ℚ :=
  let st := memory.foldl (PredictLOStep strategy) (0, 0, [])
  if st.2.2 ≠ [] then st.2.2.sum / (st.2.2.length : ℚ) else st.1 / max st.2.1 EPSILON

/-- The payoffs of the records whose stored local-operation vector is within
squared distance EPSILON of the candidate, in memory order. -/
def coincidentPayoffs (memory : List PlayRecord) (strategy : List ℚ) : List ℚ :=
  (memory.filter (fun rec => dist2 strategy rec.localOperation < EPSILON)).map
    (fun rec => rec.payoff)

/-- Embeds the Python slice self._Memory[-MemorySize:] at line 577.  For a
nonzero m the slice keeps the last m entries; for m = 0 the Python slice
[-0:] is [0:], the whole list. -/
def truncLast (l : List PlayRecord) (m : ℕ) : List PlayRecord :=
  if m = 0 then l else l.drop (l.length - m)

/-- The memory after a sequence of Remember calls appending the given
records in order, starting from the empty memory (lines 571-577:
append, then truncate). -/
def RememberFold (m : ℕ) (records : List PlayRecord) : List PlayRecord :=
  records.foldl (fun mem rec => truncLast (mem ++ [rec]) m) []

/-- Embeds the decomposition of the sampled joint basis index into per-agent
Observables in QuantumCorrelation.Observe (lines 345-348): the loop runs a
from numAgents-1 down to 0 writing measurement % RegisterSize into
Observables[numAgents-1-a] and dividing measurement by RegisterSize, i.e. the
slot-0 entry is written first and receives the least-significant digit. -/
def ObservablesOf (r : ℕ) : ℕ → ℕ → List ℕ
  | 0, _ => []
  | n + 1, measurement => measurement % r :: ObservablesOf r n (measurement / r)

/-- The factor of the tensor-product contraction in
QuantumCorrelation.Observe (lines 337-341) for one (row j, column i) pair:
the loop runs a from numAgents-1 down to 0, multiplying
Matrices[a][tj % r][ti % r] and then dividing tj and ti by r.  The list
argument is in iteration order, i.e. the reversed slot order. -/
def TensorCoeffRev (r : ℕ) : List (ℕ → ℕ → ℂ) → ℕ → ℕ → ℂ
  | [], _, _ => 1
  | M :: rest, j, i => M (j % r) (i % r) * TensorCoeffRev r rest (j / r) (i / r)

/-- The tensor coefficient with the per-agent matrices listed in slot
(registration) order. -/
def TensorCoeff (r : ℕ) (Ms : List (ℕ → ℕ → ℂ)) (j i : ℕ) : ℂ :=
  TensorCoeffRev r Ms.reverse j i

/-- A nested Game structure: scalars (int/float) at the bottom, nested
sequences above, as consumed by play (lines 587-620). -/
inductive Game where
  | leaf : ℚ → Game
  | node : List Game → Game

/-- Embeds the descent loop of play (lines 606-610): while the current nest
is not a scalar, record its length and descend into its first element.
A node with an empty list is recorded and the descent stops (in Python the
subsequent nest[0] raises IndexError; no such Game reaches the depth
check). -/
def nestLengths : Game → List ℕ
  | .leaf _ => []
  | .node [] => [0]
  | .node (g :: gs) => (g :: gs).length :: nestLengths g

/-- Embeds the shape analysis of play (lines 611-620): N = nest_lengths[-1];
depth N+1 gives types_count = [1]*N and choices_count = nest_lengths[:-1];
depth 2N+1 gives types_count = nest_lengths[:N] and choices_count =
nest_lengths[N:-1]; any other depth raises the Misdefined Game exception
(modelled as an error carrying nest_lengths), before any LearningAutomaton
is constructed (line 621) and before the iteration loop (line 625). -/
def playShape (game : Game) : Except (List ℕ) (List ℕ × List ℕ) :=
  let nl := nestLengths game
  match nl.getLast? with
  | none => Except.error []
  | some N =>
      if nl.length = N + 1 then Except.ok (List.replicate N 1, nl.dropLast)
      else if nl.length = 2 * N + 1 then Except.ok (nl.take N, nl.dropLast.drop N)
      else Except.error nl

/-- Errors raised by the Correlation protocol: the Duplicate Agent and
Unknown Agent assertions, and the AttributeError raised when
self dot Observables does not exist yet (Observable read before the first
Observe). -/
inductive CorrErr where
  | duplicateAgent (handle : ℕ)
  | unknownAgent (handle : ℕ)
  | attributeMissing
  deriving DecidableEq

/-- State of a ClassicalCorrelation instance (lines 183-189 and 243-285).
Agents lists the registered handles in registration order (the slot of a
handle is its index, matching the insertion-ordered dict); Observables is
none until the first Observe has run, mirroring the fact that the Python
attribute does not exist before then, and is never cleared afterwards. -/
structure ClassicalState where
  RegisterSize : ℕ
  Agents : List ℕ
  Operations : List (List ℚ)
  Register : List ℚ
  Observables : Option (List ℕ)
  deriving DecidableEq

/-- A freshly constructed ClassicalCorrelation (lines 183-189). -/
def initCorrelation (r : ℕ) : ClassicalState :=
  { RegisterSize := r, Agents := [], Operations := [], Register := [], Observables := none }

/-- Embeds Correlation.RegisterAgent (lines 191-198). -/
def RegisterAgent (handle : ℕ) (s : ClassicalState) : Except CorrErr ClassicalState :=
  if handle ∈ s.Agents then Except.error (CorrErr.duplicateAgent handle)
  else Except.ok { s with Agents := s.Agents ++ [handle] }

/-- Embeds ClassicalCorrelation.Prepare (lines 245-253); the register draws
are passed in explicitly.  Note that the prior Observables are left in
place: the Python method assigns only self dot Operations and
self dot Register. -/
def Prepare (reg : List ℚ) (s : ClassicalState) : ClassicalState :=
  { s with
    Operations :=
      List.replicate s.Agents.length
        (List.replicate s.RegisterSize ((1 : ℚ) / (s.RegisterSize : ℚ))),
    Register := reg }

/-- Linear scan of Python max(range(n), key=weights): keeps the current best
index and replaces it only on a strictly greater weight, so the first index
achieving the maximum wins. -/
def argmaxAux (best : ℕ × ℚ) (i : ℕ) : List ℚ → ℕ × ℚ
  | [] => best
  | w :: rest => argmaxAux (if w > best.2 then (i, w) else best) (i + 1) rest

/-- Index of the first maximal entry of a weight list (line 285). -/
def argmaxIdx (ws : List ℚ) : ℕ := (argmaxAux (0, ws.headD 0) 0 ws).1

/-- Embeds ClassicalCorrelation.Observe (lines 275-285): for each agent,
weights[i] = Register[i] * abs(operation[i]), and the Observable is the
weighted argmax; the result is stored in Observables. -/
def Observe (s : ClassicalState) : ClassicalState :=
  { s with
    Observables := some (s.Operations.map (fun op =>
      argmaxIdx ((List.range s.RegisterSize).map
        (fun i => s.Register.getD i 0 * |op.getD i 0|)))) }

/-- Embeds Correlation.Observable (lines 234-240): assert the handle is
registered, then read self dot Observables at the handle's slot.  Reading
before the first Observe raises AttributeError. -/
def Observable (handle : ℕ) (s : ClassicalState) : Except CorrErr ℕ :=
  if handle ∈ s.Agents then
    match s.Observables with
    | none => Except.error CorrErr.attributeMissing
    | some obs => Except.ok (obs.getD (s.Agents.indexOf handle) 0)
  else Except.error (CorrErr.unknownAgent handle)

/-- The stride of the slice assignment in QuantumCorrelation.Prepare
(line 303): step = sum(RegisterSize ** a for a in slot values 0..n-1). -/
def prepareStep (r n : ℕ) : ℕ := ∑ a ∈ Finset.range n, r ^ a

/-- The amplitude vector written by QuantumCorrelation.Prepare
(lines 302-304) at index i < r^n: the extended-slice assignment
QuantumState[::step] = [RegisterSize ** -0.5] * RegisterSize sets exactly
the indices that are multiples of step (and the assignment requires there
to be RegisterSize of them below r^n); all other entries keep the value 0
from the [0] * RegisterSize ** numAgents initialisation. -/
noncomputable def prepareState (r n i : ℕ) : ℝ :=
  if i % prepareStep r n = 0 then (r : ℝ) ^ (-(1 : ℝ) / 2) else 0

/-- The per-agent local-operation matrices written by Prepare (line 301):
one RegisterSize x RegisterSize matrix int(i==j) per agent. -/
def prepareMatrices (r n : ℕ) : List (Matrix (Fin r) (Fin r) ℂ) :=
  (List.range n).map (fun _ => Matrix.of (fun j i => if i = j then 1 else 0))

/-- ct = math.cos(math.pi * theta[k]) at line 141, as a complex scalar. -/
noncomputable def cosC (t : ℝ) : ℂ := ((Real.cos (Real.pi * t) : ℝ) : ℂ)

/-- st = math.sin(math.pi * theta[k]) at line 141, as a complex scalar. -/
noncomputable def sinC (t : ℝ) : ℂ := ((Real.sin (Real.pi * t) : ℝ) : ℂ)

/-- ep = cmath.exp(1j * math.pi * phi[k]) at line 141 (also the per-column
phasor cmath.exp(1j * math.pi * gamma[i]) at line 146). -/
noncomputable def epC (p : ℝ) : ℂ := Complex.exp (Complex.I * (Real.pi : ℂ) * (p : ℂ))

/-- The initial matrix U = [[int(i==j) for i in range(N)] for j in range(N)]
(line 137), as a function of (row j, column i); indices at or above N are
never read. -/
def idFn : ℕ → ℕ → ℂ := fun j i => if i = j then 1 else 0

/-- One Givens-like rotation of Unitary (line 142): rows j1 and j2 are
simultaneously replaced by
row j1 := U[j1]*ct + U[j2]*st*ep and row j2 := U[j1]*st/ep - U[j2]*ct;
all other rows are unchanged. -/
noncomputable def rotStep (t p : ℝ) (j1 j2 : ℕ) (U : ℕ → ℕ → ℂ) : ℕ → ℕ → ℂ :=
  fun j i =>
    if j = j1 then U j1 i * cosC t + U j2 i * sinC t * epC p
    else if j = j2 then U j1 i * sinC t / epC p - U j2 i * cosC t
    else U j i

/-- The subplane pairs (j1, j2) in the order traversed by the nested loops
for j1 in range(N-1), for j2 in range(j1+1, N) (lines 139-140). -/
def pairList (N : ℕ) : List (ℕ × ℕ) :=
  (List.range (N - 1)).flatMap
    (fun j1 => (List.range' (j1 + 1) (N - (j1 + 1))).map (fun j2 => (j1, j2)))

/-- The rotation phase of Unitary (lines 138-143): fold the Givens steps
over the pairs, the counter k selecting theta[k] and phi[k] and increasing
by one per pair exactly as in the code. -/
noncomputable def rotations (theta phi : List ℝ) (N : ℕ) : ℕ → ℕ → ℂ :=
  ((pairList N).foldl
    (fun Uk q => (rotStep (theta.getD Uk.2 0) (phi.getD Uk.2 0) q.1 q.2 Uk.1, Uk.2 + 1))
    (idFn, 0)).1

/-- The final per-column phases (lines 144-146):
U[j][i] *= cmath.exp(1j * math.pi * gamma[i]). -/
noncomputable def colPhase (gamma : List ℝ) (U : ℕ → ℕ → ℂ) : ℕ → ℕ → ℂ :=
  fun j i => U j i * epC (gamma.getD i 0)

/-- Embeds Unitary(theta, phi, gamma) (lines 136-147) as a function of
(row, column); the code sets N = len(gamma), passed here explicitly. -/
noncomputable def UnitaryFn (N : ℕ) (theta phi gamma : List ℝ) : ℕ → ℕ → ℂ :=
  colPhase gamma (rotations theta phi N)

/-- The N x N matrix returned by Unitary(theta, phi, gamma). -/
noncomputable def Unitary (N : ℕ) (theta phi gamma : List ℝ) :
    Matrix (Fin N) (Fin N) ℂ :=
  Matrix.of (fun j i : Fin N => UnitaryFn N theta phi gamma j i)

/-- The elements at even positions of a list: the Python slice [::2]. -/
def everyOther : List ℝ → List ℝ
  | [] => []
  | [a] => [a]
  | a :: _ :: rest => a :: everyOther rest

/-- Embeds the single-parameter calling form of Unitary (lines 133-135):
N = int(len(theta) ** 0.5 + 0.1) (the integer square root of the length),
then theta, phi, gamma = theta[:-N:2], theta[1:-N:2], theta[-N:].  The
first two slices interleave over the first len - N entries: theta takes the
even positions, phi the odd ones. -/
noncomputable def Unitary1 (v : List ℝ) : ℕ → ℕ → ℂ :=
  UnitaryFn (Nat.sqrt v.length)
    (everyOther (v.take (v.length - Nat.sqrt v.length)))
    (everyOther ((v.take (v.length - Nat.sqrt v.length)).drop 1))
    (v.drop (v.length - Nat.sqrt v.length))

/-- The contiguous-slice reading of the single-vector form asserted by the
claim: theta = first N(N-1)/2 entries, phi = next N(N-1)/2 entries, gamma =
last N entries.  Modelled from the spec sentence for comparison with
Unitary1; this is not what the code computes. -/
noncomputable def Unitary1Contiguous (v : List ℝ) : ℕ → ℕ → ℂ :=
  UnitaryFn (Nat.sqrt v.length)
    (v.take (Nat.sqrt v.length * (Nat.sqrt v.length - 1) / 2))
    ((v.drop (Nat.sqrt v.length * (Nat.sqrt v.length - 1) / 2)).take
      (Nat.sqrt v.length * (Nat.sqrt v.length - 1) / 2))
    (v.drop (v.length - Nat.sqrt v.length))

/-- Row orthonormality of the leading N x N block: the inner product of
rows a and b over columns 0..N-1 is the Kronecker delta. -/
def rowOrtho (N : ℕ) (U : ℕ → ℕ → ℂ) : Prop :=
  ∀ a b, a < N → b < N →
    (∑ c ∈ Finset.range N, U a c * (starRingEnd ℂ) (U b c)) = if a = b then 1 else 0

theorem WeightedChoiceAux_some (r : ℚ) :
    ∀ (ws : List ℚ) (upto : ℚ) (i : ℕ), ws ≠ [] → r ≤ upto + ws.sum →
      ∃ k, k < ws.length ∧ WeightedChoiceAux r ws upto i = some (i + k) := by
  intro ws
  induction ws with
  | nil => intro upto i hne _; exact absurd rfl hne
  | cons w rest ih =>
      intro upto i _ hr
      by_cases hge : upto + w ≥ r
      · exact ⟨0, by simp, by simp [WeightedChoiceAux, hge]⟩
      · have hrest : rest ≠ [] := by
          intro hnil
          subst hnil
          simp only [List.sum_cons, List.sum_nil, add_zero] at hr
          exact hge hr
        have hr2 : r ≤ (upto + w) + rest.sum := by
          simp only [List.sum_cons] at hr
          linarith
        obtain ⟨k, hk, heq⟩ := ih (upto + w) (i + 1) hrest hr2
        refine ⟨k + 1, by simpa using Nat.succ_lt_succ hk, ?_⟩
        rw [WeightedChoiceAux, if_neg hge, heq]
        congr 1
        omega

/-- C10: for a non-empty list of nonnegative weights and a draw r in
[0, sum weights], WeightedChoice returns an index below the length (the
terminal "Random overflow" branch is unreachable), and when all weights
are zero it returns index 0. -/
theorem C10_weighted_choice_total (ws : List ℚ) (r : ℚ)
    (hne : ws ≠ []) (hnn : ∀ w ∈ ws, 0 ≤ w) (h0 : 0 ≤ r) (hS : r ≤ ws.sum) :
    (∃ i, i < ws.length ∧ WeightedChoice ws r = some i) ∧
      ((∀ w ∈ ws, w = 0) → WeightedChoice ws r = some 0) := by
  constructor
  · obtain ⟨k, hk, heq⟩ := WeightedChoiceAux_some r ws 0 0 hne (by simpa using hS)
    exact ⟨k, hk, by simpa using heq⟩
  · intro hz
    have hsum : ws.sum = 0 := List.sum_eq_zero hz
    have hr0 : r = 0 := le_antisymm (by rw [← hsum]; exact hS) h0
    cases ws with
    | nil => exact absurd rfl hne
    | cons w rest =>
        have hw : w = 0 := hz w (by simp)
        simp [WeightedChoice, WeightedChoiceAux, hr0, hw]

/-- Witness for C10 at ws = [0, 0], r = 0. -/
theorem C10_witness :
    (∃ i, i < ([(0 : ℚ), 0]).length ∧ WeightedChoice [(0 : ℚ), 0] 0 = some i) ∧
      ((∀ w ∈ [(0 : ℚ), 0], w = 0) → WeightedChoice [(0 : ℚ), 0] 0 = some 0) :=
  C10_weighted_choice_total [0, 0] 0 (by simp) (by simp) (by norm_num) (by norm_num)

/-- Counterexample for C5: the input [-1, 2] has sum of absolute values 3,
so NormalizedToOne divides the signed entries by 3; the result [-1/3, 2/3]
has a negative entry and sums to 1/3, not 1. -/
theorem C5_counterexample :
    (NormalizedToOne [-1, 2]).sum ≠ 1 ∧ ¬ (∀ x ∈ NormalizedToOne [-1, 2], 0 ≤ x) := by
  have h : NormalizedToOne [-1, 2] = [-(1 / 3), 2 / 3] := by
    norm_num [NormalizedToOne, EPSILON]
  rw [h]
  norm_num

/-- C5 (amended): NormalizedToOne always preserves length; when the sum of
absolute values is below EPSILON it returns the uniform distribution, which
sums to 1 for non-empty input; otherwise it returns each entry divided by
the sum of absolute values, and when all entries are nonnegative the result
is nonnegative and sums to 1.  (The original claim extended the
nonnegativity/sum-to-1 guarantee to inputs with negative entries, which the
code does not provide: signs are preserved by the division.) -/
theorem C5_normalized_to_one (ws : List ℚ) (hne : ws ≠ []) :
    (NormalizedToOne ws).length = ws.length ∧
      ((ws.map (fun w => |w|)).sum < EPSILON →
        NormalizedToOne ws = List.replicate ws.length ((1 : ℚ) / (ws.length : ℚ))) ∧
      (¬ (ws.map (fun w => |w|)).sum < EPSILON →
        NormalizedToOne ws = ws.map (fun w => w / (ws.map (fun x => |x|)).sum)) ∧
      ((∀ w ∈ ws, 0 ≤ w) →
        (∀ x ∈ NormalizedToOne ws, 0 ≤ x) ∧ (NormalizedToOne ws).sum = 1) := by
  have hlen : (ws.map (fun w => |w|)).length = ws.length := List.length_map _ _
  have habs : ∀ l : List ℚ, (∀ w ∈ l, 0 ≤ w) → l.map (fun w => |w|) = l := by
    intro l
    induction l with
    | nil => intro _; rfl
    | cons a t ih =>
        intro h
        simp only [List.map_cons, abs_of_nonneg (h a (by simp)),
          ih (fun x hx => h x (by simp [hx]))]
  have hdivsum : ∀ (l : List ℚ) (s : ℚ), (l.map (fun w => w / s)).sum = l.sum / s := by
    intro l s
    induction l with
    | nil => simp
    | cons a t ih => simp [ih, add_div]
  refine ⟨?_, ?_, ?_, ?_⟩
  · by_cases hs : (ws.map (fun w => |w|)).sum < EPSILON
    · simp [NormalizedToOne, hs]
    · simp [NormalizedToOne, hs]
  · intro hs
    simp [NormalizedToOne, hs]
  · intro hs
    simp [NormalizedToOne, hs]
  · intro hnn
    by_cases hs : (ws.map (fun w => |w|)).sum < EPSILON
    · constructor
      · intro x hx
        simp only [NormalizedToOne, hs, if_pos, hlen] at hx
        rw [List.eq_of_mem_replicate hx]
        positivity
      · have hpos : 0 < (ws.length : ℚ) := by
          have : 0 < ws.length := List.length_pos.mpr hne
          exact_mod_cast this
        simp only [NormalizedToOne, hs, if_pos, List.sum_replicate, hlen, nsmul_eq_mul]
        field_simp
    · have hsum_pos : 0 < (ws.map (fun w => |w|)).sum := by
        push_neg at hs
        calc (0 : ℚ) < EPSILON := by norm_num [EPSILON]
        _ ≤ _ := hs
      rw [habs ws hnn] at hsum_pos
      constructor
      · intro x hx
        simp only [NormalizedToOne, hs, if_neg, not_false_iff, List.mem_map] at hx
        obtain ⟨w, hw, rfl⟩ := hx
        rw [habs ws hnn]
        exact div_nonneg (hnn w hw) (le_of_lt hsum_pos)
      · simp only [NormalizedToOne, hs, if_neg, not_false_iff]
        rw [habs ws hnn, hdivsum, div_self (ne_of_gt hsum_pos)]

/-- Witness for C5 (amended) at ws = [1, 3]. -/
theorem C5_witness :
    (NormalizedToOne [1, 3]).length = ([(1 : ℚ), 3]).length ∧
      ((([(1 : ℚ), 3]).map (fun w => |w|)).sum < EPSILON →
        NormalizedToOne [1, 3] =
          List.replicate ([(1 : ℚ), 3]).length ((1 : ℚ) / (([(1 : ℚ), 3]).length : ℚ))) ∧
      (¬ (([(1 : ℚ), 3]).map (fun w => |w|)).sum < EPSILON →
        NormalizedToOne [1, 3] =
          ([(1 : ℚ), 3]).map (fun w => w / (([(1 : ℚ), 3]).map (fun x => |x|)).sum)) ∧
      ((∀ w ∈ [(1 : ℚ), 3], 0 ≤ w) →
        (∀ x ∈ NormalizedToOne [1, 3], 0 ≤ x) ∧ (NormalizedToOne [1, 3]).sum = 1) :=
  C5_normalized_to_one [1, 3] (by simp)

theorem PredictLO_foldl_coincidents (strategy : List ℚ) :
    ∀ (mem : List PlayRecord) (st : ℚ × ℚ × List ℚ),
      (mem.foldl (PredictLOStep strategy) st).2.2
        = st.2.2 ++ coincidentPayoffs mem strategy := by
  intro mem
  induction mem with
  | nil => intro st; simp [coincidentPayoffs]
  | cons rec rest ih =>
      intro st
      rw [List.foldl_cons, ih]
      by_cases hd : dist2 strategy rec.localOperation < EPSILON
      · simp [PredictLOStep, hd, coincidentPayoffs, List.filter_cons]
      · by_cases hc : st.2.2 = [] <;>
          simp [PredictLOStep, hd, hc, coincidentPayoffs, List.filter_cons]

/-- C6: whenever at least one record is coincident with the candidate,
PredictLocalOperationPayoff returns the plain arithmetic mean of the
coincident payoffs, and any permutation of the memory gives the same value
(non-coincident records contribute nothing). -/
theorem C6_predict_coincident_mean (mem mem2 : List PlayRecord) (strategy : List ℚ)
    (hc : coincidentPayoffs mem strategy ≠ []) (hperm : mem.Perm mem2) :
    PredictLocalOperationPayoff mem strategy
        = (coincidentPayoffs mem strategy).sum / ((coincidentPayoffs mem strategy).length : ℚ) ∧
      PredictLocalOperationPayoff mem2 strategy
        = (coincidentPayoffs mem strategy).sum / ((coincidentPayoffs mem strategy).length : ℚ) := by
  have hmean : ∀ l : List PlayRecord, coincidentPayoffs l strategy ≠ [] →
      PredictLocalOperationPayoff l strategy
        = (coincidentPayoffs l strategy).sum / ((coincidentPayoffs l strategy).length : ℚ) := by
    intro l hl
    have h := PredictLO_foldl_coincidents strategy l (0, 0, [])
    rw [List.nil_append] at h
    simp only [PredictLocalOperationPayoff, h, hl, if_pos, ne_eq, not_false_eq_true]
  have hfilter : (mem.filter (fun rec => dist2 strategy rec.localOperation < EPSILON)).Perm
      (mem2.filter (fun rec => dist2 strategy rec.localOperation < EPSILON)) :=
    hperm.filter _
  have hpayoff : (coincidentPayoffs mem strategy).Perm (coincidentPayoffs mem2 strategy) :=
    hfilter.map _
  have hc2 : coincidentPayoffs mem2 strategy ≠ [] := by
    intro hnil
    apply hc
    have hlen := hpayoff.length_eq
    rw [hnil, List.length_nil] at hlen
    exact List.length_eq_zero.mp hlen
  refine ⟨hmean mem hc, ?_⟩
  rw [hmean mem2 hc2, hpayoff.sum_eq, hpayoff.length_eq]

/-- Witness for C6: one coincident record (payoff 3) and one distant record
(payoff 100); the prediction is 3. -/
theorem C6_witness :
    PredictLocalOperationPayoff
        [⟨0, [0], [], 3⟩, ⟨0, [1], [], 100⟩] [0]
        = (coincidentPayoffs [⟨0, [0], [], 3⟩, ⟨0, [1], [], 100⟩] [0]).sum
            / ((coincidentPayoffs [⟨0, [0], [], 3⟩, ⟨0, [1], [], 100⟩] [0]).length : ℚ) ∧
      PredictLocalOperationPayoff
        [⟨0, [0], [], 3⟩, ⟨0, [1], [], 100⟩] [0]
        = (coincidentPayoffs [⟨0, [0], [], 3⟩, ⟨0, [1], [], 100⟩] [0]).sum
            / ((coincidentPayoffs [⟨0, [0], [], 3⟩, ⟨0, [1], [], 100⟩] [0]).length : ℚ) :=
  C6_predict_coincident_mean _ _ [0]
    (by norm_num [coincidentPayoffs, dist2, EPSILON, List.filter])
    (List.Perm.refl _)

/-- Counterexample for C7: with MemorySize = 0 the Python truncation
self._Memory[-0:] keeps the whole list, so after one Remember call the
memory has 1 entry, exceeding MemorySize. -/
theorem C7_counterexample :
    (RememberFold 0 [⟨0, [], [], 0⟩]).length = 1 ∧
      ¬ (RememberFold 0 [⟨0, [], [], 0⟩]).length ≤ 0 := by
  constructor
  · rfl
  · simp [RememberFold, truncLast]

/-- C7 (amended): for MemorySize at least 1, after any sequence of Remember
calls the memory is exactly the suffix of the appended records of length
min(MemorySize, number of calls), in appending order; in particular it never
exceeds MemorySize entries and eviction is strictly oldest-first.  (The
original claim also covered MemorySize = 0, where the Python slice [-0:]
keeps everything.) -/
theorem C7_remember_fifo (m : ℕ) (records : List PlayRecord) (hm : 1 ≤ m) :
    RememberFold m records = records.drop (records.length - m) ∧
      (RememberFold m records).length = min m records.length ∧
      (RememberFold m records).length ≤ m := by
  have hm0 : m ≠ 0 := by omega
  have hmain : RememberFold m records = records.drop (records.length - m) := by
    induction records using List.reverseRecOn with
    | nil => simp [RememberFold]
    | append_singleton rs r ih =>
        have hstep : RememberFold m (rs ++ [r]) = truncLast (RememberFold m rs ++ [r]) m := by
          rw [RememberFold, RememberFold, List.foldl_append, List.foldl_cons, List.foldl_nil]
        rw [hstep, ih]
        by_cases hlen : rs.length < m
        · have h1 : rs.length - m = 0 := by omega
          rw [h1, List.drop_zero]
          simp [truncLast, hm0]
        · push_neg at hlen
          have htlen : (rs.drop (rs.length - m)).length = m := by
            rw [List.length_drop]
            omega
          simp only [truncLast, if_neg hm0, List.length_append, htlen, List.length_cons,
            List.length_nil]
          have h4 : m + (0 + 1) - m = 1 := by omega
          rw [h4]
          have h5 : (rs.drop (rs.length - m) ++ [r]).drop 1
              = (rs.drop (rs.length - m)).drop 1 ++ [r] :=
            List.drop_append_of_le_length (by omega)
          rw [h5, List.drop_drop]
          have hamt : rs.length + (0 + 1) - m = rs.length - m + 1 := by omega
          rw [hamt]
          have h7 : (rs ++ [r]).drop (rs.length - m + 1)
              = rs.drop (rs.length - m + 1) ++ [r] :=
            List.drop_append_of_le_length (by omega)
          rw [h7]
  refine ⟨hmain, ?_, ?_⟩
  · rw [hmain, List.length_drop]
    omega
  · rw [hmain, List.length_drop]
    omega

/-- Witness for C7 (amended) at MemorySize 2 and three Remember calls. -/
theorem C7_witness :
    RememberFold 2 [⟨0, [], [], 1⟩, ⟨0, [], [], 2⟩, ⟨0, [], [], 3⟩]
        = ([⟨0, [], [], 1⟩, ⟨0, [], [], 2⟩, ⟨0, [], [], 3⟩] :
            List PlayRecord).drop (([⟨0, [], [], 1⟩, ⟨0, [], [], 2⟩, ⟨0, [], [], 3⟩] :
            List PlayRecord).length - 2) ∧
      (RememberFold 2 [⟨0, [], [], 1⟩, ⟨0, [], [], 2⟩, ⟨0, [], [], 3⟩]).length
        = min 2 ([⟨0, [], [], 1⟩, ⟨0, [], [], 2⟩, ⟨0, [], [], 3⟩] :
            List PlayRecord).length ∧
      (RememberFold 2 [⟨0, [], [], 1⟩, ⟨0, [], [], 2⟩, ⟨0, [], [], 3⟩]).length ≤ 2 :=
  C7_remember_fifo 2 _ (by norm_num)

theorem ObservablesOf_length (r : ℕ) :
    ∀ (n m : ℕ), (ObservablesOf r n m).length = n := by
  intro n
  induction n with
  | zero => intro m; rfl
  | succ k ih => intro m; simp [ObservablesOf, ih]

theorem ObservablesOf_getD (r : ℕ) :
    ∀ (n m k : ℕ), k < n → (ObservablesOf r n m).getD k 0 = m / r ^ k % r := by
  intro n
  induction n with
  | zero => intro m k hk; omega
  | succ n ih =>
      intro m k hk
      cases k with
      | zero => simp [ObservablesOf]
      | succ k =>
          have hk2 : k < n := by omega
          simp only [ObservablesOf, List.getD_cons_succ, ih (m / r) k hk2]
          rw [Nat.div_div_eq_div_mul, pow_succ, mul_comm (r ^ k) r]

theorem TensorCoeffRev_prod (r : ℕ) :
    ∀ (L : List (ℕ → ℕ → ℂ)) (j i : ℕ),
      TensorCoeffRev r L j i
        = ∏ a ∈ Finset.range L.length,
            L.getD a (fun _ _ => 0) (j / r ^ a % r) (i / r ^ a % r) := by
  intro L
  induction L with
  | nil => intro j i; simp [TensorCoeffRev]
  | cons M rest ih =>
      intro j i
      rw [TensorCoeffRev, ih (j / r) (i / r), List.length_cons, Finset.prod_range_succ']
      simp only [List.getD_cons_succ, List.getD_cons_zero, pow_zero, Nat.div_one]
      rw [mul_comm]
      congr 1
      apply Finset.prod_congr rfl
      intro a _
      rw [Nat.div_div_eq_div_mul, Nat.div_div_eq_div_mul, ← pow_succ']

theorem getD_reverse_fn (L : List (ℕ → ℕ → ℂ)) (a : ℕ) (ha : a < L.length)
    (d : ℕ → ℕ → ℂ) : L.reverse.getD a d = L.getD (L.length - 1 - a) d := by
  rw [List.getD_eq_getElem?_getD, List.getD_eq_getElem?_getD, List.getElem?_reverse ha]

/-- Counterexample for C1: RegisterSize 2, two agents, sampled joint index 2
(binary 10).  The most-significant digit of the index is 1, but the
first-registered agent (slot 0) receives Observable 0, the least-significant
digit. -/
theorem C1_counterexample :
    (ObservablesOf 2 2 2).getD 0 0 = 0 ∧ 2 / 2 ^ (2 - 1) % 2 = 1 ∧ (0 : ℕ) ≠ 1 := by
  refine ⟨rfl, rfl, by omega⟩

/-- C1 (amended): the sampled index is decomposed least-significant digit
first: the agent registered in slot k receives the k-th least-significant
base-RegisterSize digit (measurement / r^k % r), while the tensor-product
contraction applies the slot-a matrix to digit position numAgents-1-a.
Hence each agent's Observable is the digit acted on by the matrix of the
agent in the mirrored slot, not its own. -/
theorem C1_observe_digit_order (r n m k j i : ℕ) (Ms : List (ℕ → ℕ → ℂ))
    (hk : k < n) (hMs : Ms.length = n) :
    (ObservablesOf r n m).getD k 0 = m / r ^ k % r ∧
      (ObservablesOf r n m).length = n ∧
      TensorCoeff r Ms j i
        = ∏ a ∈ Finset.range n,
            Ms.getD (n - 1 - a) (fun _ _ => 0) (j / r ^ a % r) (i / r ^ a % r) := by
  refine ⟨ObservablesOf_getD r n m k hk, ObservablesOf_length r n m, ?_⟩
  rw [TensorCoeff, TensorCoeffRev_prod, List.length_reverse, hMs]
  apply Finset.prod_congr rfl
  intro a ha
  rw [Finset.mem_range] at ha
  rw [getD_reverse_fn Ms a (by omega), hMs]

/-- Witness for C1 (amended) at r = 2, n = 2, measurement 2, slot 1,
matrix entry (1, 2), matrices constant 3 and 5. -/
theorem C1_witness :
    (ObservablesOf 2 2 2).getD 1 0 = 2 / 2 ^ 1 % 2 ∧
      (ObservablesOf 2 2 2).length = 2 ∧
      TensorCoeff 2 [fun _ _ => (3 : ℂ), fun _ _ => (5 : ℂ)] 1 2
        = ∏ a ∈ Finset.range 2,
            ([fun _ _ => (3 : ℂ), fun _ _ => (5 : ℂ)]).getD (2 - 1 - a) (fun _ _ => 0)
              (1 / 2 ^ a % 2) (2 / 2 ^ a % 2) :=
  C1_observe_digit_order 2 2 2 1 1 2 _ (by omega) rfl

/-- C9: with N the length of the payoff leaf reached by first descent
(the last recorded nest length), a depth of N+1 yields the non-Bayesian
wrapping with one type per player and the first N lengths as choice counts;
a depth of 2N+1 yields the first N lengths as type counts and the next N as
choice counts; any other depth is rejected before automata are created and
before any iteration runs. -/
theorem C9_play_shape (game : Game) (N : ℕ)
    (hN : (nestLengths game).getLast? = some N) :
    ((nestLengths game).length = N + 1 →
        playShape game
          = Except.ok (List.replicate N 1, (nestLengths game).take N)) ∧
      ((nestLengths game).length = 2 * N + 1 →
        playShape game
          = Except.ok ((nestLengths game).take N,
              ((nestLengths game).drop N).take N)) ∧
      ((nestLengths game).length ≠ N + 1 → (nestLengths game).length ≠ 2 * N + 1 →
        playShape game = Except.error (nestLengths game)) := by
  refine ⟨?_, ?_, ?_⟩
  · intro hdepth
    rw [playShape]
    simp only [hN, hdepth, if_pos]
    have : (nestLengths game).dropLast = (nestLengths game).take N := by
      rw [List.dropLast_eq_take, hdepth]
      simp
    rw [this]
  · intro hdepth
    have hsecond : (nestLengths game).dropLast.drop N = ((nestLengths game).drop N).take N := by
      rw [List.dropLast_eq_take, List.drop_take, hdepth]
      congr 1
      omega
    rw [playShape]
    simp only [hN, hdepth]
    by_cases hz : N = 0
    · subst hz
      rw [if_pos (by norm_num), List.dropLast_eq_take, hdepth]
      simp
    · rw [if_neg (by omega)]
      simp only [if_true, eq_self_iff_true]
      rw [hsecond]
  · intro h1 h2
    rw [playShape]
    simp only [hN]
    rw [if_neg h1, if_neg h2]

/-- Witness for C9 on a concrete 2-player, 2-choice non-Bayesian game with
payoff pairs at the leaves (depth 3 = N + 1 for N = 2). -/
theorem C9_witness :
    ((nestLengths (Game.node [Game.node [Game.node [Game.leaf 1, Game.leaf (-1)],
          Game.node [Game.leaf (-1), Game.leaf 1]],
        Game.node [Game.node [Game.leaf (-1), Game.leaf 1],
          Game.node [Game.leaf 1, Game.leaf (-1)]]])).length = 2 + 1 →
        playShape (Game.node [Game.node [Game.node [Game.leaf 1, Game.leaf (-1)],
          Game.node [Game.leaf (-1), Game.leaf 1]],
        Game.node [Game.node [Game.leaf (-1), Game.leaf 1],
          Game.node [Game.leaf 1, Game.leaf (-1)]]])
          = Except.ok (List.replicate 2 1,
              (nestLengths (Game.node [Game.node [Game.node [Game.leaf 1, Game.leaf (-1)],
          Game.node [Game.leaf (-1), Game.leaf 1]],
        Game.node [Game.node [Game.leaf (-1), Game.leaf 1],
          Game.node [Game.leaf 1, Game.leaf (-1)]]])).take 2)) ∧
      ((nestLengths (Game.node [Game.node [Game.node [Game.leaf 1, Game.leaf (-1)],
          Game.node [Game.leaf (-1), Game.leaf 1]],
        Game.node [Game.node [Game.leaf (-1), Game.leaf 1],
          Game.node [Game.leaf 1, Game.leaf (-1)]]])).length = 2 * 2 + 1 →
        playShape (Game.node [Game.node [Game.node [Game.leaf 1, Game.leaf (-1)],
          Game.node [Game.leaf (-1), Game.leaf 1]],
        Game.node [Game.node [Game.leaf (-1), Game.leaf 1],
          Game.node [Game.leaf 1, Game.leaf (-1)]]])
          = Except.ok ((nestLengths (Game.node [Game.node [Game.node [Game.leaf 1,
              Game.leaf (-1)],
          Game.node [Game.leaf (-1), Game.leaf 1]],
        Game.node [Game.node [Game.leaf (-1), Game.leaf 1],
          Game.node [Game.leaf 1, Game.leaf (-1)]]])).take 2,
              ((nestLengths (Game.node [Game.node [Game.node [Game.leaf 1, Game.leaf (-1)],
          Game.node [Game.leaf (-1), Game.leaf 1]],
        Game.node [Game.node [Game.leaf (-1), Game.leaf 1],
          Game.node [Game.leaf 1, Game.leaf (-1)]]])).drop 2).take 2)) ∧
      ((nestLengths (Game.node [Game.node [Game.node [Game.leaf 1, Game.leaf (-1)],
          Game.node [Game.leaf (-1), Game.leaf 1]],
        Game.node [Game.node [Game.leaf (-1), Game.leaf 1],
          Game.node [Game.leaf 1, Game.leaf (-1)]]])).length ≠ 2 + 1 →
        (nestLengths (Game.node [Game.node [Game.node [Game.leaf 1, Game.leaf (-1)],
          Game.node [Game.leaf (-1), Game.leaf 1]],
        Game.node [Game.node [Game.leaf (-1), Game.leaf 1],
          Game.node [Game.leaf 1, Game.leaf (-1)]]])).length ≠ 2 * 2 + 1 →
        playShape (Game.node [Game.node [Game.node [Game.leaf 1, Game.leaf (-1)],
          Game.node [Game.leaf (-1), Game.leaf 1]],
        Game.node [Game.node [Game.leaf (-1), Game.leaf 1],
          Game.node [Game.leaf 1, Game.leaf (-1)]]])
          = Except.error (nestLengths (Game.node [Game.node [Game.node [Game.leaf 1,
              Game.leaf (-1)],
          Game.node [Game.leaf (-1), Game.leaf 1]],
        Game.node [Game.node [Game.leaf (-1), Game.leaf 1],
          Game.node [Game.leaf 1, Game.leaf (-1)]]]))) :=
  C9_play_shape _ 2 rfl

/-- Counterexample for C8: register agent 1, Prepare, Observe (reading 0),
then Prepare for the next round.  Reading Observable after this second
Prepare but before the second Observe does not fail fast: it returns ok 0,
the value collapsed in the previous round. -/
theorem C8_counterexample :
    RegisterAgent 1 (initCorrelation 2)
        = Except.ok (ClassicalState.mk 2 [1] [] [] none) ∧
      Observable 1
          (Prepare [1/3, 2/3]
            (Observe (Prepare [1/2, 1/4] (ClassicalState.mk 2 [1] [] [] none))))
        = Except.ok 0 ∧
      Observable 1
          (Observe (Prepare [1/2, 1/4] (ClassicalState.mk 2 [1] [] [] none)))
        = Except.ok 0 := by
  refine ⟨by simp [RegisterAgent, initCorrelation], ?_, ?_⟩
  · norm_num [Observable, Prepare, Observe, argmaxIdx, argmaxAux, List.range_succ,
      List.indexOf]
  · norm_num [Observable, Prepare, Observe, argmaxIdx, argmaxAux, List.range_succ,
      List.indexOf]

/-- C8 (amended): Observable fails fast exactly when the handle is
unregistered or no Observe has ever run; and Prepare leaves the Observable
reads unchanged, so after the first round the collapsed values of the
previous round remain readable between Prepare and the next Observe. -/
theorem C8_observable_window (s : ClassicalState) (handle : ℕ) (reg : List ℚ) :
    ((∃ e, Observable handle s = Except.error e)
        ↔ (handle ∉ s.Agents ∨ s.Observables = none)) ∧
      Observable handle (Prepare reg s) = Observable handle s := by
  constructor
  · constructor
    · intro ⟨e, he⟩
      by_cases hmem : handle ∈ s.Agents
      · cases hobs : s.Observables with
        | none => exact Or.inr rfl
        | some obs =>
            rw [Observable, if_pos hmem, hobs] at he
            exact absurd he (by simp)
      · exact Or.inl hmem
    · intro hor
      cases hor with
      | inl hmem => exact ⟨CorrErr.unknownAgent handle, by rw [Observable, if_neg hmem]⟩
      | inr hobs =>
          by_cases hmem : handle ∈ s.Agents
          · exact ⟨CorrErr.attributeMissing, by rw [Observable, if_pos hmem, hobs]⟩
          · exact ⟨CorrErr.unknownAgent handle, by rw [Observable, if_neg hmem]⟩
  · rw [Observable, Observable]
    rfl

theorem prepareStep_geom (s n : ℕ) : s * prepareStep (s + 1) n + 1 = (s + 1) ^ n := by
  induction n with
  | zero => simp [prepareStep]
  | succ n ih =>
      rw [prepareStep, Finset.sum_range_succ, ← prepareStep, pow_succ, ← ih]
      ring

theorem prepareStep_succ (r n : ℕ) : prepareStep r (n + 1) = 1 + r * prepareStep r n := by
  rw [prepareStep, Finset.sum_range_succ', prepareStep]
  simp only [pow_zero, pow_succ]
  rw [← Finset.sum_mul, add_comm, mul_comm]

theorem prepareStep_pos (r n : ℕ) (hn : 1 ≤ n) : 1 ≤ prepareStep r n := by
  have h : n = (n - 1) + 1 := by omega
  rw [h, prepareStep_succ]
  omega

theorem mul_prepareStep_div (r d n : ℕ) (hd : d < r) :
    ∀ k, k ≤ n → d * prepareStep r n / r ^ k = d * prepareStep r (n - k) := by
  intro k
  induction k with
  | zero => intro _; simp
  | succ k ih =>
      intro hk
      have hk2 : k ≤ n := by omega
      have hm : n - k = (n - (k + 1)) + 1 := by omega
      rw [pow_succ, ← Nat.div_div_eq_div_mul, ih hk2, hm, prepareStep_succ]
      have hsplit : d * (1 + r * prepareStep r (n - (k + 1)))
          = d + (d * prepareStep r (n - (k + 1))) * r := by ring
      rw [hsplit, Nat.add_mul_div_right _ _ (by omega), Nat.div_eq_of_lt hd, zero_add]

theorem mul_prepareStep_digit (r d n : ℕ) (hd : d < r) :
    ∀ k, k < n → d * prepareStep r n / r ^ k % r = d := by
  intro k hk
  rw [mul_prepareStep_div r d n hd k (by omega)]
  have hm : n - k = (n - k - 1) + 1 := by omega
  rw [hm, prepareStep_succ]
  have hsplit : d * (1 + r * prepareStep r (n - k - 1))
      = d + (d * prepareStep r (n - k - 1)) * r := by ring
  rw [hsplit, Nat.add_mul_mod_self_right, Nat.mod_eq_of_lt hd]

theorem eq_mod_mul_prepareStep (r : ℕ) (hr : 1 ≤ r) :
    ∀ n, 1 ≤ n → ∀ i, i < r ^ n → (∀ k, k < n → i / r ^ k % r = i % r) →
      i = (i % r) * prepareStep r n := by
  intro n
  induction n with
  | zero => intro h; omega
  | succ n ih =>
      intro _ i hi hdig
      by_cases hn : n = 0
      · subst hn
        have hstep : prepareStep r 1 = 1 := by
          rw [prepareStep_succ]
          simp [prepareStep]
        rw [hstep, mul_one, Nat.mod_eq_of_lt (by simpa using hi)]
      · have hn1 : 1 ≤ n := by omega
        have hj : i / r < r ^ n := by
          rw [Nat.div_lt_iff_lt_mul (by omega), ← pow_succ]
          exact hi
        have hmod : i / r % r = i % r := by
          have h2 := hdig 1 (by omega)
          rw [pow_one] at h2
          exact h2
        have hjd : ∀ k, k < n → (i / r) / r ^ k % r = (i / r) % r := by
          intro k hk
          have h1 := hdig (k + 1) (by omega)
          rw [Nat.div_div_eq_div_mul, ← pow_succ', h1, hmod]
        have hIH := ih hn1 (i / r) hj hjd
        rw [hmod] at hIH
        conv_lhs => rw [← Nat.mod_add_div i r]
        rw [prepareStep_succ]
        conv_lhs => rw [hIH]
        ring

theorem mod_prepareStep_iff (r n i : ℕ) (hr : 1 ≤ r) (hn : 1 ≤ n) (hi : i < r ^ n) :
    i % prepareStep r n = 0 ↔ ∃ d, d < r ∧ i = d * prepareStep r n := by
  have hstep := prepareStep_pos r n hn
  constructor
  · intro h
    obtain ⟨s, rfl⟩ : ∃ s, r = s + 1 := ⟨r - 1, by omega⟩
    refine ⟨i / prepareStep (s + 1) n, ?_, ?_⟩
    · have hgeom := prepareStep_geom s n
      have hle : i ≤ s * prepareStep (s + 1) n := by omega
      have hdiv : i / prepareStep (s + 1) n ≤ s := by
        calc i / prepareStep (s + 1) n
            ≤ s * prepareStep (s + 1) n / prepareStep (s + 1) n :=
              Nat.div_le_div_right hle
          _ = s := Nat.mul_div_cancel s hstep
      omega
    · exact (Nat.div_mul_cancel (Nat.dvd_of_mod_eq_zero h)).symm
  · rintro ⟨d, _, rfl⟩
    exact Nat.mul_mod_left d _

theorem digits_iff_mul_prepareStep (r n i : ℕ) (hr : 1 ≤ r) (hn : 1 ≤ n) (hi : i < r ^ n) :
    (∀ k, k < n → i / r ^ k % r = i % r) ↔ ∃ d, d < r ∧ i = d * prepareStep r n := by
  constructor
  · intro hdig
    exact ⟨i % r, Nat.mod_lt i (by omega), eq_mod_mul_prepareStep r hr n hn i hi hdig⟩
  · rintro ⟨d, hd, rfl⟩
    intro k hk
    have h0 : d * prepareStep r n % r = d := by
      have h00 := mul_prepareStep_digit r d n hd 0 (by omega)
      simpa using h00
    rw [mul_prepareStep_digit r d n hd k hk, h0]

theorem prepareStep_formula (r n : ℕ) (hr : 2 ≤ r) :
    prepareStep r n = (r ^ n - 1) / (r - 1) := by
  obtain ⟨s, rfl⟩ : ∃ s, r = s + 1 := ⟨r - 1, by omega⟩
  have hgeom := prepareStep_geom s n
  have hs : 1 ≤ s := by omega
  have hsub : (s + 1) ^ n - 1 = s * prepareStep (s + 1) n := by omega
  rw [hsub, Nat.add_sub_cancel, Nat.mul_div_cancel_left _ (by omega)]

theorem prepareMatrices_id (r n : ℕ) :
    prepareMatrices r n = List.replicate n (1 : Matrix (Fin r) (Fin r) ℂ) := by
  have hM : Matrix.of (fun j i : Fin r => if i = j then (1 : ℂ) else 0)
      = (1 : Matrix (Fin r) (Fin r) ℂ) := by
    ext j i
    rw [Matrix.one_apply]
    simp only [Matrix.of_apply]
    by_cases h : j = i
    · simp [h]
    · rw [if_neg (fun hc => h hc.symm), if_neg h]
  rw [prepareMatrices, hM]
  induction n with
  | zero => rfl
  | succ n ih =>
      rw [List.range_succ, List.map_append, ih, List.replicate_succ']
      rfl

/-- C4: after Prepare with RegisterSize r and n registered agents, the state
has amplitude r ** -0.5 exactly at the indices whose n base-r digits are all
equal, 0 elsewhere; those indices are exactly d * ((r^n - 1)/(r - 1)) for
d < r (for r = 1 the Lean natural-number formula also gives the single
index 0); and every local-operation matrix is reset to the identity. -/
theorem C4_prepare_state (r n i : ℕ) (hr : 1 ≤ r) (hn : 1 ≤ n) (hi : i < r ^ n) :
    (prepareState r n i = (r : ℝ) ^ (-(1 : ℝ) / 2)
        ↔ (∀ k, k < n → i / r ^ k % r = i % r)) ∧
      (¬ (∀ k, k < n → i / r ^ k % r = i % r) → prepareState r n i = 0) ∧
      ((∀ k, k < n → i / r ^ k % r = i % r)
        ↔ ∃ d, d < r ∧ i = d * ((r ^ n - 1) / (r - 1))) ∧
      prepareMatrices r n = List.replicate n (1 : Matrix (Fin r) (Fin r) ℂ) := by
  have hamp : (0 : ℝ) < (r : ℝ) ^ (-(1 : ℝ) / 2) := by
    apply Real.rpow_pos_of_pos
    exact_mod_cast Nat.lt_of_lt_of_le Nat.zero_lt_one hr
  have hAdig : i % prepareStep r n = 0 ↔ (∀ k, k < n → i / r ^ k % r = i % r) :=
    (mod_prepareStep_iff r n i hr hn hi).trans
      (digits_iff_mul_prepareStep r n i hr hn hi).symm
  refine ⟨?_, ?_, ?_, prepareMatrices_id r n⟩
  · constructor
    · intro h
      by_cases hA : i % prepareStep r n = 0
      · exact hAdig.mp hA
      · rw [prepareState, if_neg hA] at h
        exact absurd h.symm (ne_of_gt hamp)
    · intro hdig
      rw [prepareState, if_pos (hAdig.mpr hdig)]
  · intro hdig
    rw [prepareState, if_neg (fun hA => hdig (hAdig.mp hA))]
  · rcases Nat.lt_or_ge r 2 with hr1 | hr2
    · have hreq : r = 1 := by omega
      subst hreq
      have hi0 : i = 0 := by simpa using hi
      subst hi0
      simp
    · rw [← prepareStep_formula r n hr2]
      exact digits_iff_mul_prepareStep r n i hr hn hi

/-- Witness for C4 at r = 2, n = 2, i = 3 (binary 11, both digits equal). -/
theorem C4_witness :
    (prepareState 2 2 3 = ((2 : ℕ) : ℝ) ^ (-(1 : ℝ) / 2)
        ↔ (∀ k, k < 2 → 3 / 2 ^ k % 2 = 3 % 2)) ∧
      (¬ (∀ k, k < 2 → 3 / 2 ^ k % 2 = 3 % 2) → prepareState 2 2 3 = 0) ∧
      ((∀ k, k < 2 → 3 / 2 ^ k % 2 = 3 % 2)
        ↔ ∃ d, d < 2 ∧ 3 = d * ((2 ^ 2 - 1) / (2 - 1))) ∧
      prepareMatrices 2 2 = List.replicate 2 (1 : Matrix (Fin 2) (Fin 2) ℂ) :=
  C4_prepare_state 2 2 3 (by omega) (by omega) (by omega)

theorem epC_mul_conj (p : ℝ) : epC p * (starRingEnd ℂ) (epC p) = 1 := by
  rw [epC, ← Complex.exp_conj, ← Complex.exp_add]
  have harg : Complex.I * (Real.pi : ℂ) * (p : ℂ)
      + (starRingEnd ℂ) (Complex.I * (Real.pi : ℂ) * (p : ℂ)) = 0 := by
    simp only [map_mul, Complex.conj_I, Complex.conj_ofReal]
    ring
  rw [harg, Complex.exp_zero]

theorem epC_ne_zero (p : ℝ) : epC p ≠ 0 := Complex.exp_ne_zero _

theorem conj_epC (p : ℝ) : (starRingEnd ℂ) (epC p) = (epC p)⁻¹ :=
  eq_inv_of_mul_eq_one_left (by rw [mul_comm]; exact epC_mul_conj p)

theorem conj_cosC (t : ℝ) : (starRingEnd ℂ) (cosC t) = cosC t := Complex.conj_ofReal _

theorem conj_sinC (t : ℝ) : (starRingEnd ℂ) (sinC t) = sinC t := Complex.conj_ofReal _

theorem cosC_sq_add_sinC_sq (t : ℝ) : cosC t * cosC t + sinC t * sinC t = 1 := by
  rw [cosC, sinC, ← Complex.ofReal_mul, ← Complex.ofReal_mul, ← Complex.ofReal_add,
    ← Complex.ofReal_one]
  have h := Real.sin_sq_add_cos_sq (Real.pi * t)
  exact Complex.ofReal_inj.mpr (by nlinarith [h])

theorem conj_epC_inv (p : ℝ) : (starRingEnd ℂ) ((epC p)⁻¹) = epC p := by
  rw [map_inv₀, conj_epC, inv_inv]

theorem rowOrtho_idFn (N : ℕ) : rowOrtho N idFn := by
  intro a b ha hb
  have hterm : ∀ c, idFn a c * (starRingEnd ℂ) (idFn b c)
      = if c = a then (if a = b then 1 else 0) else 0 := by
    intro c
    simp only [idFn]
    by_cases hca : c = a
    · subst hca
      by_cases hcb : c = b
      · subst hcb
        simp
      · simp [hcb]
    · simp [hca]
  rw [Finset.sum_congr rfl (fun c _ => hterm c), Finset.sum_ite_eq' (Finset.range N) a _,
    if_pos (Finset.mem_range.mpr ha)]

theorem sum_mul_conj_comb (N : ℕ) (x y z w : ℂ) (A B C D : ℕ → ℂ) :
    (∑ c ∈ Finset.range N, (x * A c + y * B c) * (starRingEnd ℂ) (z * C c + w * D c))
      = x * (starRingEnd ℂ) z * (∑ c ∈ Finset.range N, A c * (starRingEnd ℂ) (C c))
        + x * (starRingEnd ℂ) w * (∑ c ∈ Finset.range N, A c * (starRingEnd ℂ) (D c))
        + y * (starRingEnd ℂ) z * (∑ c ∈ Finset.range N, B c * (starRingEnd ℂ) (C c))
        + y * (starRingEnd ℂ) w * (∑ c ∈ Finset.range N, B c * (starRingEnd ℂ) (D c)) := by
  have hterm : ∀ c ∈ Finset.range N,
      (x * A c + y * B c) * (starRingEnd ℂ) (z * C c + w * D c)
        = x * (starRingEnd ℂ) z * (A c * (starRingEnd ℂ) (C c))
          + x * (starRingEnd ℂ) w * (A c * (starRingEnd ℂ) (D c))
          + y * (starRingEnd ℂ) z * (B c * (starRingEnd ℂ) (C c))
          + y * (starRingEnd ℂ) w * (B c * (starRingEnd ℂ) (D c)) := by
    intro c _
    simp only [map_add, map_mul]
    ring
  rw [Finset.sum_congr rfl hterm]
  simp only [Finset.sum_add_distrib, Finset.mul_sum]

theorem rotStep_row1 (t p : ℝ) (j1 j2 : ℕ) (U : ℕ → ℕ → ℂ) (c : ℕ) :
    rotStep t p j1 j2 U j1 c = cosC t * U j1 c + (sinC t * epC p) * U j2 c := by
  unfold rotStep
  rw [if_pos rfl]
  ring

theorem rotStep_row2 (t p : ℝ) (j1 j2 : ℕ) (hne : j1 ≠ j2) (U : ℕ → ℕ → ℂ) (c : ℕ) :
    rotStep t p j1 j2 U j2 c
      = (sinC t * (epC p)⁻¹) * U j1 c + (-(cosC t)) * U j2 c := by
  unfold rotStep
  rw [if_neg (Ne.symm hne), if_pos rfl, div_eq_mul_inv]
  ring

theorem rotStep_rowO (t p : ℝ) (j1 j2 a : ℕ) (ha1 : a ≠ j1) (ha2 : a ≠ j2)
    (U : ℕ → ℕ → ℂ) (c : ℕ) : rotStep t p j1 j2 U a c = U a c := by
  unfold rotStep
  rw [if_neg ha1, if_neg ha2]

theorem rotStep_rowOrtho (N : ℕ) (t p : ℝ) (j1 j2 : ℕ) (h1 : j1 < N) (h2 : j2 < N)
    (hne : j1 ≠ j2) (U : ℕ → ℕ → ℂ) (hU : rowOrtho N U) :
    rowOrtho N (rotStep t p j1 j2 U) := by
  have S11 : (∑ c ∈ Finset.range N, U j1 c * (starRingEnd ℂ) (U j1 c)) = 1 := by
    rw [hU j1 j1 h1 h1, if_pos rfl]
  have S22 : (∑ c ∈ Finset.range N, U j2 c * (starRingEnd ℂ) (U j2 c)) = 1 := by
    rw [hU j2 j2 h2 h2, if_pos rfl]
  have S12 : (∑ c ∈ Finset.range N, U j1 c * (starRingEnd ℂ) (U j2 c)) = 0 := by
    rw [hU j1 j2 h1 h2, if_neg hne]
  have S21 : (∑ c ∈ Finset.range N, U j2 c * (starRingEnd ℂ) (U j1 c)) = 0 := by
    rw [hU j2 j1 h2 h1, if_neg (Ne.symm hne)]
  intro a b ha hb
  rcases eq_or_ne j1 a with rfl | ha1
  · rcases eq_or_ne j1 b with rfl | hb1
    · rw [Finset.sum_congr rfl (fun c _ => by rw [rotStep_row1 t p j1 j2 U c]),
        sum_mul_conj_comb, S11, S12, S21, S22, if_pos rfl]
      simp only [conj_cosC, map_mul, conj_sinC, mul_zero, mul_one, add_zero, zero_add]
      linear_combination sinC t * sinC t * epC_mul_conj p + cosC_sq_add_sinC_sq t
    · rcases eq_or_ne j2 b with rfl | hb2
      · rw [Finset.sum_congr rfl (fun c _ => by
            rw [rotStep_row1 t p j1 j2 U c, rotStep_row2 t p j1 j2 hne U c]),
          sum_mul_conj_comb, S11, S12, S21, S22, if_neg hne]
        simp only [conj_cosC, map_mul, conj_sinC, conj_epC_inv, map_neg, mul_zero,
          mul_one, add_zero, zero_add]
        ring
      · rw [Finset.sum_congr rfl (fun c _ => by
            rw [rotStep_row1 t p j1 j2 U c,
              rotStep_rowO t p j1 j2 b (Ne.symm hb1) (Ne.symm hb2) U c,
              show U b c = 1 * U b c + 0 * U b c from by ring]),
          sum_mul_conj_comb, hU j1 b h1 hb, hU j2 b h2 hb, if_neg hb1, if_neg hb2]
        simp
  · rcases eq_or_ne j2 a with rfl | ha2
    · rcases eq_or_ne j1 b with rfl | hb1
      · rw [Finset.sum_congr rfl (fun c _ => by
            rw [rotStep_row2 t p j1 j2 hne U c, rotStep_row1 t p j1 j2 U c]),
          sum_mul_conj_comb, S11, S12, S21, S22, if_neg (Ne.symm hne)]
        simp only [conj_cosC, map_mul, conj_sinC, map_neg, mul_zero, mul_one,
          add_zero, zero_add, conj_epC]
        ring
      · rcases eq_or_ne j2 b with rfl | hb2
        · rw [Finset.sum_congr rfl (fun c _ => by
              rw [rotStep_row2 t p j1 j2 hne U c]),
            sum_mul_conj_comb, S11, S12, S21, S22, if_pos rfl]
          simp only [conj_cosC, map_mul, conj_sinC, conj_epC_inv, map_neg, mul_zero,
            mul_one, add_zero, zero_add]
          have hepinv : (epC p)⁻¹ * epC p = 1 := inv_mul_cancel₀ (epC_ne_zero p)
          linear_combination sinC t * sinC t * hepinv + cosC_sq_add_sinC_sq t
        · rw [Finset.sum_congr rfl (fun c _ => by
              rw [rotStep_row2 t p j1 j2 hne U c,
                rotStep_rowO t p j1 j2 b (Ne.symm hb1) (Ne.symm hb2) U c,
                show U b c = 1 * U b c + 0 * U b c from by ring]),
            sum_mul_conj_comb, hU j1 b h1 hb, hU j2 b h2 hb, if_neg hb1, if_neg hb2]
          simp
    · have hna1 : a ≠ j1 := Ne.symm ha1
      have hna2 : a ≠ j2 := Ne.symm ha2
      rcases eq_or_ne j1 b with rfl | hb1
      · rw [Finset.sum_congr rfl (fun c _ => by
            rw [rotStep_rowO t p j1 j2 a hna1 hna2 U c,
              rotStep_row1 t p j1 j2 U c,
              show U a c = 1 * U a c + 0 * U a c from by ring]),
          sum_mul_conj_comb, hU a j1 ha h1, hU a j2 ha h2,
          if_neg hna1, if_neg hna2]
        simp
      · rcases eq_or_ne j2 b with rfl | hb2
        · rw [Finset.sum_congr rfl (fun c _ => by
              rw [rotStep_rowO t p j1 j2 a hna1 hna2 U c,
                rotStep_row2 t p j1 j2 hne U c,
                show U a c = 1 * U a c + 0 * U a c from by ring]),
            sum_mul_conj_comb, hU a j1 ha h1, hU a j2 ha h2,
            if_neg hna1, if_neg hna2]
          simp
        · rw [Finset.sum_congr rfl (fun c _ => by
              rw [rotStep_rowO t p j1 j2 a (Ne.symm ha1) (Ne.symm ha2) U c,
                rotStep_rowO t p j1 j2 b (Ne.symm hb1) (Ne.symm hb2) U c]),
            hU a b ha hb]

theorem pairList_mem (N : ℕ) : ∀ q ∈ pairList N, q.1 < q.2 ∧ q.2 < N := by
  intro q hq
  rw [pairList, List.mem_flatMap] at hq
  obtain ⟨j1, hj1, hq2⟩ := hq
  rw [List.mem_map] at hq2
  obtain ⟨j2, hj2, rfl⟩ := hq2
  rw [List.mem_range] at hj1
  rw [List.mem_range'_1] at hj2
  constructor <;> omega

theorem rotations_rowOrtho (theta phi : List ℝ) (N : ℕ) :
    rowOrtho N (rotations theta phi N) := by
  rw [rotations]
  have h : ∀ l : List (ℕ × ℕ), (∀ q ∈ l, q.1 < q.2 ∧ q.2 < N) →
      ∀ Uk : (ℕ → ℕ → ℂ) × ℕ, rowOrtho N Uk.1 →
      rowOrtho N ((l.foldl (fun Uk q =>
        (rotStep (theta.getD Uk.2 0) (phi.getD Uk.2 0) q.1 q.2 Uk.1, Uk.2 + 1)) Uk).1) := by
    intro l
    induction l with
    | nil => intro _ Uk hUk; simpa using hUk
    | cons q rest ih =>
        intro hmem Uk hUk
        rw [List.foldl_cons]
        apply ih (fun x hx => hmem x (List.mem_cons_of_mem q hx))
        obtain ⟨hlt, hN⟩ := hmem q (List.mem_cons_self q rest)
        exact rotStep_rowOrtho N _ _ q.1 q.2 (lt_trans hlt hN) hN (Nat.ne_of_lt hlt)
          Uk.1 hUk
  exact h (pairList N) (pairList_mem N) (idFn, 0) (rowOrtho_idFn N)

theorem colPhase_rowOrtho (gamma : List ℝ) (N : ℕ) (U : ℕ → ℕ → ℂ)
    (hU : rowOrtho N U) : rowOrtho N (colPhase gamma U) := by
  intro a b ha hb
  have hterm : ∀ c ∈ Finset.range N,
      colPhase gamma U a c * (starRingEnd ℂ) (colPhase gamma U b c)
        = U a c * (starRingEnd ℂ) (U b c) := by
    intro c _
    rw [colPhase]
    calc U a c * epC (gamma.getD c 0)
          * (starRingEnd ℂ) (U b c * epC (gamma.getD c 0))
        = (U a c * (starRingEnd ℂ) (U b c))
            * (epC (gamma.getD c 0) * (starRingEnd ℂ) (epC (gamma.getD c 0))) := by
          rw [map_mul]
          ring
      _ = U a c * (starRingEnd ℂ) (U b c) := by rw [epC_mul_conj, mul_one]
  rw [Finset.sum_congr rfl hterm, hU a b ha hb]

theorem UnitaryFn_rowOrtho (N : ℕ) (theta phi gamma : List ℝ) :
    rowOrtho N (UnitaryFn N theta phi gamma) :=
  colPhase_rowOrtho gamma N _ (rotations_rowOrtho theta phi N)

theorem Unitary_mul_conjTranspose (N : ℕ) (theta phi gamma : List ℝ) :
    Unitary N theta phi gamma * (Unitary N theta phi gamma).conjTranspose = 1 := by
  ext a b
  rw [Matrix.mul_apply, Matrix.one_apply]
  have h := UnitaryFn_rowOrtho N theta phi gamma a b a.isLt b.isLt
  calc (∑ j : Fin N, Unitary N theta phi gamma a j * (Unitary N theta phi gamma).conjTranspose j b)
      = ∑ j : Fin N, UnitaryFn N theta phi gamma (a : ℕ) (j : ℕ)
          * (starRingEnd ℂ) (UnitaryFn N theta phi gamma (b : ℕ) (j : ℕ)) := by
        apply Finset.sum_congr rfl
        intro j _
        rw [Matrix.conjTranspose_apply]
        rfl
    _ = ∑ c ∈ Finset.range N, UnitaryFn N theta phi gamma (a : ℕ) c
          * (starRingEnd ℂ) (UnitaryFn N theta phi gamma (b : ℕ) c) :=
        Fin.sum_univ_eq_sum_range
          (fun c => UnitaryFn N theta phi gamma (a : ℕ) c
            * (starRingEnd ℂ) (UnitaryFn N theta phi gamma (b : ℕ) c)) N
    _ = if (a : ℕ) = (b : ℕ) then 1 else 0 := h
    _ = if a = b then 1 else 0 := by
        by_cases hab : a = b
        · rw [if_pos (congrArg Fin.val hab), if_pos hab]
        · rw [if_neg (fun hc => hab (Fin.ext hc)), if_neg hab]

/-- C3: for every valid parameter triple (theta, phi of length N(N-1)/2,
gamma of length N, entries in [-1, 1]) the matrix built by Unitary satisfies
U times its conjugate transpose equals the identity, exactly, over the
complex numbers of the shallow embedding.  (The proof does not need the
hypotheses: every Givens step and the column phases are exactly unitary for
arbitrary real parameters.) -/
theorem C3_unitary_product (N : ℕ) (theta phi gamma : List ℝ)
    (_hth : theta.length = N * (N - 1) / 2) (_hph : phi.length = N * (N - 1) / 2)
    (_hga : gamma.length = N)
    (_hbt : ∀ x ∈ theta, |x| ≤ 1) (_hbp : ∀ x ∈ phi, |x| ≤ 1)
    (_hbg : ∀ x ∈ gamma, |x| ≤ 1) :
    Unitary N theta phi gamma * (Unitary N theta phi gamma).conjTranspose = 1 :=
  Unitary_mul_conjTranspose N theta phi gamma

/-- Witness for C3 at N = 2, theta = [1/2], phi = [0], gamma = [0, 0]. -/
theorem C3_witness :
    Unitary 2 [1 / 2] [0] [0, 0] * (Unitary 2 [1 / 2] [0] [0, 0]).conjTranspose = 1 :=
  C3_unitary_product 2 [1 / 2] [0] [0, 0] (by simp) (by simp) (by simp)
    (by
      intro x hx
      rw [List.mem_singleton] at hx
      rw [hx, abs_of_nonneg (by norm_num : (0 : ℝ) ≤ 1 / 2)]
      norm_num)
    (by intro x hx; rw [List.mem_singleton] at hx; rw [hx]; norm_num)
    (by
      intro x hx
      rcases List.mem_cons.mp hx with h | h
      · rw [h]; norm_num
      · rw [List.mem_singleton] at h; rw [h]; norm_num)

theorem cosC_zero : cosC 0 = 1 := by simp [cosC]

theorem sinC_zero : sinC 0 = 0 := by simp [sinC]

theorem epC_zero : epC 0 = 1 := by simp [epC]

theorem cosC_half : cosC (1 / 2) = 0 := by
  rw [cosC, mul_one_div, Real.cos_pi_div_two, Complex.ofReal_zero]

theorem sinC_half : sinC (1 / 2) = 1 := by
  rw [sinC, mul_one_div, Real.sin_pi_div_two, Complex.ofReal_one]

theorem twoStepInduction {motive : List ℝ → Prop} (h0 : motive [])
    (h1 : ∀ a, motive [a]) (h2 : ∀ a b t, motive t → motive (a :: b :: t)) :
    ∀ l, motive l
  | [] => h0
  | [a] => h1 a
  | a :: b :: t => h2 a b t (twoStepInduction h0 h1 h2 t)

theorem everyOther_eq : ∀ l : List ℝ,
    everyOther l = (List.range ((l.length + 1) / 2)).map (fun k => l.getD (2 * k) 0) := by
  apply twoStepInduction
  · rfl
  · intro a
    have h1 : (([a] : List ℝ).length + 1) / 2 = 1 := by simp
    rw [h1, show List.range 1 = [0] from by decide]
    norm_num [everyOther]
  · intro a b t ih
    have hlen : ((a :: b :: t).length + 1) / 2 = (t.length + 1) / 2 + 1 := by
      simp only [List.length_cons]
      omega
    rw [everyOther, ih, hlen, List.range_succ_eq_map, List.map_cons, List.map_map]
    refine List.cons_eq_cons.mpr ⟨by simp, ?_⟩
    apply List.map_congr_left
    intro k _
    show t.getD (2 * k) 0 = (a :: b :: t).getD (2 * (k + 1)) 0
    have h2k : 2 * (k + 1) = 2 * k + 1 + 1 := by ring
    rw [h2k, List.getD_cons_succ, List.getD_cons_succ]

theorem getD_take (l : List ℝ) (m j : ℕ) (h : j < m) (d : ℝ) :
    (l.take m).getD j d = l.getD j d := by
  rw [List.getD_eq_getElem?_getD, List.getD_eq_getElem?_getD, List.getElem?_take,
    if_pos h]

theorem getD_drop (l : List ℝ) (n m : ℕ) (d : ℝ) :
    (l.drop n).getD m d = l.getD (n + m) d := by
  rw [List.getD_eq_getElem?_getD, List.getD_eq_getElem?_getD, List.getElem?_drop]

theorem drop_eq_range_map (l : List ℝ) (M : ℕ) :
    l.drop M = (List.range (l.length - M)).map (fun j => l.getD (M + j) 0) := by
  apply List.ext_getElem
  · simp
  · intro j h1 h2
    rw [List.getElem_drop, List.getElem_map, List.getElem_range,
      List.getD_eq_getElem]

/-- C2 (amended): the single-vector form of Unitary splits the flat vector
with stride two over its first N(N-1) entries: theta[k] = v[2k] (even
positions), phi[k] = v[2k+1] (odd positions), and gamma[j] = v[N(N-1)+j]
(the last N entries), and returns the same matrix as the three-argument
form applied to those interleaved slices.  The original claim asserted the
first two slices are contiguous, which holds only for N at most 2. -/
theorem C2_interleaved_split (v : List ℝ) (N : ℕ) (hv : v.length = N * N) :
    everyOther (v.take (v.length - Nat.sqrt v.length))
        = (List.range (N * (N - 1) / 2)).map (fun k => v.getD (2 * k) 0) ∧
      everyOther ((v.take (v.length - Nat.sqrt v.length)).drop 1)
        = (List.range (N * (N - 1) / 2)).map (fun k => v.getD (2 * k + 1) 0) ∧
      v.drop (v.length - Nat.sqrt v.length)
        = (List.range N).map (fun j => v.getD (N * (N - 1) + j) 0) ∧
      Unitary1 v = UnitaryFn N
        ((List.range (N * (N - 1) / 2)).map (fun k => v.getD (2 * k) 0))
        ((List.range (N * (N - 1) / 2)).map (fun k => v.getD (2 * k + 1) 0))
        ((List.range N).map (fun j => v.getD (N * (N - 1) + j) 0)) := by
  have hsq : Nat.sqrt v.length = N := by rw [hv]; exact Nat.sqrt_eq N
  have hNN : N * N = N * (N - 1) + N := by
    cases N with
    | zero => rfl
    | succ n => simp only [Nat.succ_sub_one]; ring
  have hM : v.length - Nat.sqrt v.length = N * (N - 1) := by
    rw [hsq, hv]
    omega
  have heven : N * (N - 1) = 2 * (N * (N - 1) / 2) := by
    have hdvd : 2 ∣ N * (N - 1) := by
      cases N with
      | zero => simp
      | succ n =>
          simp only [Nat.succ_sub_one]
          rw [mul_comm]
          exact (Nat.even_mul_succ_self n).two_dvd
    omega
  have hMle : N * (N - 1) ≤ v.length := by rw [hv]; omega
  have htake_len : (v.take (N * (N - 1))).length = N * (N - 1) := by
    rw [List.length_take]
    omega
  have h1 : everyOther (v.take (v.length - Nat.sqrt v.length))
      = (List.range (N * (N - 1) / 2)).map (fun k => v.getD (2 * k) 0) := by
    rw [hM, everyOther_eq, htake_len]
    have hcount : (N * (N - 1) + 1) / 2 = N * (N - 1) / 2 := by omega
    rw [hcount]
    apply List.map_congr_left
    intro k hk
    rw [List.mem_range] at hk
    exact getD_take v (N * (N - 1)) (2 * k) (by omega) 0
  have h2 : everyOther ((v.take (v.length - Nat.sqrt v.length)).drop 1)
      = (List.range (N * (N - 1) / 2)).map (fun k => v.getD (2 * k + 1) 0) := by
    rw [hM, everyOther_eq, List.length_drop, htake_len]
    have hcount : (N * (N - 1) - 1 + 1) / 2 = N * (N - 1) / 2 := by omega
    rw [hcount]
    apply List.map_congr_left
    intro k hk
    rw [List.mem_range] at hk
    rw [getD_drop, getD_take v (N * (N - 1)) (1 + 2 * k) (by omega) 0]
    congr 1
    omega
  have h3 : v.drop (v.length - Nat.sqrt v.length)
      = (List.range N).map (fun j => v.getD (N * (N - 1) + j) 0) := by
    rw [hM, drop_eq_range_map]
    have hcount : v.length - N * (N - 1) = N := by omega
    rw [hcount]
  refine ⟨h1, h2, h3, ?_⟩
  rw [Unitary1, h1, h2, h3, hsq]

/-- Witness for C2 (amended) at N = 2, v = [0, 0, 0, 0]. -/
theorem C2_witness :
    Unitary1 [(0 : ℝ), 0, 0, 0] = UnitaryFn 2
      ((List.range (2 * (2 - 1) / 2)).map (fun k => ([(0 : ℝ), 0, 0, 0]).getD (2 * k) 0))
      ((List.range (2 * (2 - 1) / 2)).map (fun k => ([(0 : ℝ), 0, 0, 0]).getD (2 * k + 1) 0))
      ((List.range 2).map (fun j => ([(0 : ℝ), 0, 0, 0]).getD (2 * (2 - 1) + j) 0)) :=
  (C2_interleaved_split [0, 0, 0, 0] 2 rfl).2.2.2

/-- Counterexample for C2: for the length-9 vector
v = [0, 1/2, 0, 0, 0, 0, 0, 0, 0] (N = 3), the code's interleaved split
reads phi[0] = 1/2 with all rotation angles theta = 0 and produces matrix
entry (0,0) = 1, while the contiguous split asserted by the claim reads
theta[1] = 1/2 and produces entry (0,0) = 0: the two matrices differ, so
the single-vector form does not split into contiguous slices. -/
theorem C2_counterexample :
    Unitary1 [(0 : ℝ), 1/2, 0, 0, 0, 0, 0, 0, 0] 0 0 = 1 ∧
      Unitary1Contiguous [(0 : ℝ), 1/2, 0, 0, 0, 0, 0, 0, 0] 0 0 = 0 ∧
      (1 : ℂ) ≠ 0 := by
  have hsq : Nat.sqrt ([(0 : ℝ), 1/2, 0, 0, 0, 0, 0, 0, 0]).length = 3 := by
    rw [show ([(0 : ℝ), 1/2, 0, 0, 0, 0, 0, 0, 0]).length = 3 * 3 from rfl]
    exact Nat.sqrt_eq 3
  have hpair : pairList 3 = [(0, 1), (0, 2), (1, 2)] := by decide
  have hg0 : ([(0 : ℝ), 0, 0]).getD 0 0 = 0 := rfl
  refine ⟨?_, ?_, one_ne_zero⟩
  · have hth : everyOther (([(0 : ℝ), 1/2, 0, 0, 0, 0, 0, 0, 0]).take
        (([(0 : ℝ), 1/2, 0, 0, 0, 0, 0, 0, 0]).length - 3)) = [0, 0, 0] := rfl
    have hph : everyOther ((([(0 : ℝ), 1/2, 0, 0, 0, 0, 0, 0, 0]).take
        (([(0 : ℝ), 1/2, 0, 0, 0, 0, 0, 0, 0]).length - 3)).drop 1) = [1/2, 0, 0] := rfl
    have hga : ([(0 : ℝ), 1/2, 0, 0, 0, 0, 0, 0, 0]).drop
        (([(0 : ℝ), 1/2, 0, 0, 0, 0, 0, 0, 0]).length - 3) = [0, 0, 0] := rfl
    have ht0 : ([(0 : ℝ), 0, 0]).getD 0 0 = 0 := rfl
    have ht1 : ([(0 : ℝ), 0, 0]).getD 1 0 = 0 := rfl
    have ht2 : ([(0 : ℝ), 0, 0]).getD 2 0 = 0 := rfl
    have hp0 : ([(1 : ℝ)/2, 0, 0]).getD 0 0 = 1/2 := rfl
    have hp1 : ([(1 : ℝ)/2, 0, 0]).getD 1 0 = 0 := rfl
    have hp2 : ([(1 : ℝ)/2, 0, 0]).getD 2 0 = 0 := rfl
    rw [Unitary1, hsq, hth, hph, hga]
    simp only [UnitaryFn, colPhase, rotations, hpair, List.foldl_cons, List.foldl_nil,
      ht0, ht1, ht2, hp0, hp1, hp2, hg0]
    have e1 : rotStep 0 (1/2) 0 1 idFn 0 0 = 1 := by
      rw [rotStep_row1 0 (1/2) 0 1 idFn 0, cosC_zero, sinC_zero]
      norm_num [idFn]
    have e2 : rotStep 0 (1/2) 0 1 idFn 2 0 = 0 := by
      rw [rotStep_rowO 0 (1/2) 0 1 2 (by decide) (by decide) idFn 0]
      norm_num [idFn]
    have e3 : rotStep 0 0 0 2 (rotStep 0 (1/2) 0 1 idFn) 0 0 = 1 := by
      rw [rotStep_row1 0 0 0 2 _ 0, cosC_zero, sinC_zero, e1, e2]
      norm_num
    have e4 : rotStep 0 0 1 2 (rotStep 0 0 0 2 (rotStep 0 (1/2) 0 1 idFn)) 0 0 = 1 := by
      rw [rotStep_rowO 0 0 1 2 0 (by decide) (by decide) _ 0, e3]
    rw [e4, epC_zero, mul_one]
  · have hth : ([(0 : ℝ), 1/2, 0, 0, 0, 0, 0, 0, 0]).take (3 * (3 - 1) / 2)
        = [0, 1/2, 0] := rfl
    have hph : (([(0 : ℝ), 1/2, 0, 0, 0, 0, 0, 0, 0]).drop (3 * (3 - 1) / 2)).take
        (3 * (3 - 1) / 2) = [0, 0, 0] := rfl
    have hga : ([(0 : ℝ), 1/2, 0, 0, 0, 0, 0, 0, 0]).drop
        (([(0 : ℝ), 1/2, 0, 0, 0, 0, 0, 0, 0]).length - 3) = [0, 0, 0] := rfl
    have ht0 : ([(0 : ℝ), 1/2, 0]).getD 0 0 = 0 := rfl
    have ht1 : ([(0 : ℝ), 1/2, 0]).getD 1 0 = 1/2 := rfl
    have ht2 : ([(0 : ℝ), 1/2, 0]).getD 2 0 = 0 := rfl
    have hp0 : ([(0 : ℝ), 0, 0]).getD 0 0 = 0 := rfl
    have hp1 : ([(0 : ℝ), 0, 0]).getD 1 0 = 0 := rfl
    have hp2 : ([(0 : ℝ), 0, 0]).getD 2 0 = 0 := rfl
    rw [Unitary1Contiguous, hsq, hth, hph, hga]
    simp only [UnitaryFn, colPhase, rotations, hpair, List.foldl_cons, List.foldl_nil,
      ht0, ht1, ht2, hp0, hp1, hp2, hg0]
    have f1 : rotStep 0 0 0 1 idFn 0 0 = 1 := by
      rw [rotStep_row1 0 0 0 1 idFn 0, cosC_zero, sinC_zero]
      norm_num [idFn]
    have f1c : rotStep 0 0 0 1 idFn 2 0 = 0 := by
      rw [rotStep_rowO 0 0 0 1 2 (by decide) (by decide) idFn 0]
      norm_num [idFn]
    have f2 : rotStep (1/2) 0 0 2 (rotStep 0 0 0 1 idFn) 0 0 = 0 := by
      rw [rotStep_row1 (1/2) 0 0 2 _ 0, cosC_half, sinC_half, epC_zero, f1, f1c]
      norm_num
    have f3 : rotStep 0 0 1 2 (rotStep (1/2) 0 0 2 (rotStep 0 0 0 1 idFn)) 0 0 = 0 := by
      rw [rotStep_rowO 0 0 1 2 0 (by decide) (by decide) _ 0, f2]
    rw [f3, epC_zero, mul_one]

end CorrelatedAutomata
